import Mathlib

/-!
Verification of the ore-miner bundle-mining orchestration engine.

Shallow embedding of the Rust sources (src/main.rs, src/utils.rs,
src/bundle_mine.rs, src/bundle_mine_gpu.rs, src/constant.rs, src/jito.rs)
into Lean 4.  Machine integers are modelled as `Nat` (with explicit
`% 2 ^ 64` where wrap-around matters), hash-map lookups as functions into
`Option`, and panics / fallible paths as `Option` results.
-/

/-! ## Data model -/

/-- One reward bus of the ore program (`ore::state::Bus`): an id and the
rewards still available on it.  The source field is named `rewards`. -/
structure Bus where
  id : Nat
  rewards : Nat
deriving DecidableEq, Repr

/-- Commitment level reported for a transaction
(`solana_transaction_status::TransactionConfirmationStatus`). -/
inductive TransactionConfirmationStatus where
  | processed
  | confirmed
  | finalized
deriving DecidableEq, Repr

/-- Placeholder for `solana_sdk::transaction::TransactionError`; the miner
never inspects a variant, only presence/absence, so a one-constructor type
suffices. -/
inductive TxError where
  | err
deriving DecidableEq, Repr

/-- Status of one polled signature
(`solana_transaction_status::TransactionStatus`).  Only the fields the
miner's code path can reach are kept. -/
structure TransactionStatus where
  slot : Nat
  confirmations : Option Nat
  err : Option TxError
  confirmation_status : Option TransactionConfirmationStatus
deriving DecidableEq, Repr

/-- Embedding of `TransactionStatus::satisfies_commitment` from the
`solana-transaction-status` crate, specialised to
`CommitmentConfig::confirmed()` (the only commitment the miner passes, in
`src/utils.rs` line 41).  For a confirmed commitment the library checks the
`confirmation_status` field when present (anything but `Processed`
qualifies) and otherwise falls back to the legacy `confirmations` field;
the `err` field is never consulted. -/
def satisfiesCommitmentConfirmed (ts : TransactionStatus) : Bool :=
  match ts.confirmation_status with
  | some st => st != TransactionConfirmationStatus.processed
  | none =>
    (match ts.confirmations with
     | some c => decide (1 < c)
     | none => false) ||
    ts.confirmations.isNone

/-! ## Capacity selection (C5)

`Miner::find_buses`, src/main.rs lines 197-206: filter the buses whose
`rewards` is at least `required_reward`, then `sort_by(|a, b|
b.rewards.cmp(&a.rewards))` — a stable sort that orders descending by
`rewards`.  Rust's `sort_by` is a stable sort; `List.insertionSort` is the
stable sort used for the embedding (any two stable sorts of the same
comparator agree pointwise). -/

/-- Order used by `find_buses`: descending by `rewards` (the Rust
comparator `b.rewards.cmp(&a.rewards)`). -/
def busGE (a b : Bus) : Prop := b.rewards ≤ a.rewards

instance : DecidableRel busGE := fun a b => Nat.decLe b.rewards a.rewards

instance : IsTotal Bus busGE := ⟨fun a b => Nat.le_total b.rewards a.rewards⟩

instance : IsTrans Bus busGE := ⟨fun _ _ _ hab hbc => Nat.le_trans hbc hab⟩

/-- Embedding of `Miner::find_buses` (src/main.rs lines 197-206). -/
def find_buses (buses : List Bus) (required_reward : Nat) : List Bus :=
  List.insertionSort busGE (buses.filter (fun bus => decide (required_reward ≤ bus.rewards)))

/-! ## Adaptive tip (C4) -/

/-- Embedding of the adaptive-tip computation at the fixed-worker call
site, src/bundle_mine.rs lines 173-179: when `args.max_adaptive_tip > 0`
and the feed's `p50` is positive, `tip =
args.max_adaptive_tip.min(30000.max(tips.p50() + 1))`; otherwise the
incoming `tip` value (`base`) is kept.  `tips.p50() + 1` is a `u64`
addition and wraps in release builds (the f64→`u64` cast in
`JitoTips::p50` saturates, so `p50 = u64::MAX` is reachable); the wrap is
the explicit `% 2 ^ 64`. -/
def adaptive_tip_cpu (base max_adaptive_tip p50 : Nat) : Nat :=
  if 0 < max_adaptive_tip then
    if 0 < p50 then min max_adaptive_tip (max 30000 ((p50 + 1) % 2 ^ 64)) else base
  else base

/-- Embedding of the adaptive-tip computation at the pooled-batch call
site, `SendBundleTask::work`, src/bundle_mine_gpu.rs lines 364-377: when
`self.max_tip > 0`, a zero `p50` falls back to `self.tip` (`base`), else
`tip = (p50 + 1).max(50000).min(self.max_tip)`, with the same wrapping
`u64` addition `p50 + 1` as at the fixed-worker site. -/
def adaptive_tip_gpu (base max_tip p50 : Nat) : Nat :=
  if 0 < max_tip then
    if p50 = 0 then base else min (max ((p50 + 1) % 2 ^ 64) 50000) max_tip
  else base

/-! ## Landed-transaction classification (C1) and reward accounting (C2) -/

/-- Embedding of `find_landed_txs` (src/utils.rs lines 36-50): zip the
polled statuses with the signatures (signatures are opaque, modelled as
`Nat`), keep a signature when its status is present (`status?`) and
`satisfies_commitment(CommitmentConfig::confirmed())` holds.  The `err`
field of a status plays no role. -/
def find_landed_txs (signatures : List Nat)
    (statuses : List (Option TransactionStatus)) : List Nat :=
  (statuses.zip signatures).filterMap fun p =>
    match p.1 with
    | none => none
    | some status => if satisfiesCommitmentConfirmed status then some p.2 else none

/-- Statement form of claim C1 at one input: the landed set contains
exactly the signatures whose paired status is present, satisfies the
confirmed commitment AND carries no transaction error. -/
def landedSetMatchesNoErrSpec (signatures : List Nat)
    (statuses : List (Option TransactionStatus)) : Prop :=
  ∀ x : Nat, x ∈ find_landed_txs signatures statuses ↔
    ∃ st : TransactionStatus, (some st, x) ∈ statuses.zip signatures ∧
      satisfiesCommitmentConfirmed st = true ∧ st.err = none

/-- Confirmed-with-error status used to refute C1 as stated: the
confirmation status is `confirmed` but the transaction failed on chain. -/
def erroredConfirmedStatus : TransactionStatus :=
  { slot := 7, confirmations := some 10, err := some TxError.err,
    confirmation_status := some TransactionConfirmationStatus.confirmed }

/-- Counter-example to C1 as stated: for signature list `[0]` and a single
status that satisfies the confirmed commitment but carries a transaction
error, `find_landed_txs` still reports the signature as landed, so the
"and carries no transaction error" conjunct of the claim is false of the
code (`satisfies_commitment` never reads `err`). -/
theorem find_landed_txs_err_counterexample :
    ¬ landedSetMatchesNoErrSpec [0] [some erroredConfirmedStatus] := by
  intro h
  have hmem : (0 : Nat) ∈ find_landed_txs [0] [some erroredConfirmedStatus] := by decide
  rcases (h 0).mp hmem with ⟨st, hst, _, herr⟩
  have : st = erroredConfirmedStatus := by
    simp [List.zip] at hst
    exact hst
  rw [this] at herr
  simp [erroredConfirmedStatus] at herr

/-- C1 (amended): the landed set contains exactly the signatures whose
paired status is present and satisfies the confirmed commitment — the
transaction-error field is not consulted. -/
theorem find_landed_txs_spec (signatures : List Nat)
    (statuses : List (Option TransactionStatus)) (x : Nat) :
    x ∈ find_landed_txs signatures statuses ↔
      ∃ st : TransactionStatus, (some st, x) ∈ statuses.zip signatures ∧
        satisfiesCommitmentConfirmed st = true := by
  unfold find_landed_txs
  rw [List.mem_filterMap]
  constructor
  · rintro ⟨⟨ost, sig⟩, hmem, hf⟩
    cases ost with
    | none => simp at hf
    | some st =>
      by_cases hsat : satisfiesCommitmentConfirmed st
      · simp [hsat] at hf
        exact ⟨st, by rwa [hf] at hmem, hsat⟩
      · simp [hsat] at hf
  · rintro ⟨st, hmem, hsat⟩
    exact ⟨(some st, x), hmem, by simp [hsat]⟩

/-- Reward recorded for one fixed-worker cycle
(src/bundle_mine.rs line 171): `treasury.reward_rate.saturating_mul
(signers.len() as u64)` — a saturating `u64` product. -/
def cycle_rewards (reward_rate num_signers : Nat) : Nat :=
  min (reward_rate * num_signers) (2 ^ 64 - 1)

/-- Update of the running reward counter after the polling loop of
`bundle_mine_worker` (src/bundle_mine.rs lines 313-335): when the landed
set is non-empty, `reward_counter.fetch_add(rewards)` (a wrapping `u64`
add); otherwise the counter is untouched. -/
def update_reward_counter (counter : Nat) (landed_tx : List Nat) (rewards : Nat) : Nat :=
  if landed_tx.isEmpty then counter else (counter + rewards) % 2 ^ 64

/-- C2: on a Landed outcome the counter increases by exactly the full
batch's nominal reward `reward_rate * num_signers` (no scaling by how many
signatures landed — the landed set only gates the add), and on an empty
landed set it is unchanged.  The `u64` hypotheses rule out saturation of
the nominal product and wrap-around of the counter add. -/
theorem reward_counter_spec (counter reward_rate num_signers : Nat)
    (signatures : List Nat) (statuses : List (Option TransactionStatus))
    (hprod : reward_rate * num_signers < 2 ^ 64)
    (hadd : counter + reward_rate * num_signers < 2 ^ 64) :
    (find_landed_txs signatures statuses ≠ [] →
      update_reward_counter counter (find_landed_txs signatures statuses)
          (cycle_rewards reward_rate num_signers) =
        counter + reward_rate * num_signers) ∧
    (find_landed_txs signatures statuses = [] →
      update_reward_counter counter (find_landed_txs signatures statuses)
          (cycle_rewards reward_rate num_signers) = counter) := by
  have hr : cycle_rewards reward_rate num_signers = reward_rate * num_signers := by
    unfold cycle_rewards; omega
  constructor
  · intro hne
    have hie : (find_landed_txs signatures statuses).isEmpty = false := by
      simp [List.isEmpty_iff, hne]
    unfold update_reward_counter
    rw [hr, hie]
    simp only [Bool.false_eq_true, if_false]
    exact Nat.mod_eq_of_lt hadd
  · intro he
    have hie : (find_landed_txs signatures statuses).isEmpty = true := by
      simp [List.isEmpty_iff, he]
    unfold update_reward_counter
    rw [hie]
    simp

/-- Successfully confirmed, error-free status used in witnesses. -/
def landedOkStatus : TransactionStatus :=
  { slot := 7, confirmations := some 10, err := none,
    confirmation_status := some TransactionConfirmationStatus.confirmed }

/-- Witness for C2: with counter 5, reward rate 3 and 2 identities, a
landed signature adds exactly 6, and an absent status leaves the counter
at 5. -/
theorem reward_counter_spec_witness :
    update_reward_counter 5 (find_landed_txs [0] [some landedOkStatus])
        (cycle_rewards 3 2) = 5 + 3 * 2 ∧
    update_reward_counter 5 (find_landed_txs [0] [none])
        (cycle_rewards 3 2) = 5 :=
  ⟨(reward_counter_spec 5 3 2 [0] [some landedOkStatus] (by decide) (by decide)).1
      (by decide),
   (reward_counter_spec 5 3 2 [0] [none] (by decide) (by decide)).2 (by decide)⟩

/-! ## Fee-payer selection (C9) and balance fetch (C10) -/

/-- Fold implementing Rust's `Iterator::max_by_key` over key-annotated
elements: the maximum by the second component, the LAST one on ties (as
documented for `max_by_key`). -/
def maxByKeyLast (l : List (Nat × Nat)) : Option (Nat × Nat) :=
  l.foldl
    (fun acc x =>
      match acc with
      | none => some x
      | some a => if a.2 ≤ x.2 then some x else some a)
    none

/-- Key-annotation pass of `pick_richest_account`: Rust's `max_by_key`
evaluates `account_balances.get(pubkey).unwrap()` on every candidate while
iterating, so one missing entry panics the whole call (`none` here). -/
def keyedBalances (account_balances : Nat → Option Nat) :
    List Nat → Option (List (Nat × Nat))
  | [] => some []
  | a :: as =>
    match account_balances a with
    | none => none
    | some b =>
      match keyedBalances account_balances as with
      | none => none
      | some rest => some ((a, b) :: rest)

/-- Embedding of `pick_richest_account` (src/utils.rs lines 52-57).  The
`HashMap` argument is modelled by its lookup function.  The key closure
`account_balances.get(pubkey).unwrap()` panics on a missing entry and the
final `.expect` panics on an empty candidate list; both panic paths are
the `none` result. -/
def pick_richest_account (account_balances : Nat → Option Nat)
    (accounts : List Nat) : Option Nat :=
  match keyedBalances account_balances accounts with
  | none => none
  | some keyed => (maxByKeyLast keyed).map (fun p => p.1)

theorem foldl_maxByKey_spec (l : List (Nat × Nat)) (init : Nat × Nat) :
    ∃ m, l.foldl
        (fun acc x =>
          match acc with
          | none => some x
          | some a => if a.2 ≤ x.2 then some x else some a)
        (some init) = some m ∧
      (m = init ∨ m ∈ l) ∧ init.2 ≤ m.2 ∧ ∀ x ∈ l, x.2 ≤ m.2 := by
  induction l generalizing init with
  | nil => exact ⟨init, rfl, Or.inl rfl, Nat.le_refl _, by simp⟩
  | cons x xs ih =>
    by_cases hx : init.2 ≤ x.2
    · obtain ⟨m, hm, hmem, hle, hall⟩ := ih x
      refine ⟨m, by simpa [hx] using hm, ?_, Nat.le_trans hx hle, ?_⟩
      · rcases hmem with h | h
        · exact Or.inr (by simp [h])
        · exact Or.inr (List.mem_cons_of_mem _ h)
      · intro y hy
        rcases List.mem_cons.mp hy with h | h
        · rw [h]; exact hle
        · exact hall y h
    · obtain ⟨m, hm, hmem, hle, hall⟩ := ih init
      refine ⟨m, by simpa [hx] using hm, ?_, hle, ?_⟩
      · rcases hmem with h | h
        · exact Or.inl h
        · exact Or.inr (List.mem_cons_of_mem _ h)
      · intro y hy
        rcases List.mem_cons.mp hy with h | h
        · rw [h]; exact Nat.le_trans (Nat.le_of_not_le hx) hle
        · exact hall y h

theorem maxByKeyLast_spec (l : List (Nat × Nat)) (hne : l ≠ []) :
    ∃ m, maxByKeyLast l = some m ∧ m ∈ l ∧ ∀ x ∈ l, x.2 ≤ m.2 := by
  match l with
  | [] => exact absurd rfl hne
  | x :: xs =>
    obtain ⟨m, hm, hmem, hle, hall⟩ := foldl_maxByKey_spec xs x
    refine ⟨m, hm, ?_, ?_⟩
    · rcases hmem with h | h
      · simp [h]
      · exact List.mem_cons_of_mem _ h
    · intro y hy
      rcases List.mem_cons.mp hy with h | h
      · rw [h]; exact hle
      · exact hall y h

theorem keyedBalances_some (balances : Nat → Option Nat) (accounts : List Nat)
    (h : ∀ a ∈ accounts, (balances a).isSome) :
    ∃ keyed : List (Nat × Nat),
      keyedBalances balances accounts = some keyed ∧
      keyed.map Prod.fst = accounts ∧ ∀ p ∈ keyed, balances p.1 = some p.2 := by
  induction accounts with
  | nil => exact ⟨[], rfl, rfl, by simp⟩
  | cons a as ih =>
    obtain ⟨b, hb⟩ := Option.isSome_iff_exists.mp (h a (List.mem_cons_self a as))
    obtain ⟨keyed, hk, hmap, hall⟩ := ih (fun x hx => h x (List.mem_cons_of_mem a hx))
    refine ⟨(a, b) :: keyed, ?_, by simp [hmap], ?_⟩
    · simp [keyedBalances, hb, hk]
    · intro p hp
      rcases List.mem_cons.mp hp with h | h
      · rw [h]; exact hb
      · exact hall p h

theorem keyedBalances_none (balances : Nat → Option Nat) (accounts : List Nat)
    (h : ∃ a ∈ accounts, balances a = none) :
    keyedBalances balances accounts = none := by
  induction accounts with
  | nil => simp at h
  | cons a as ih =>
    rcases h with ⟨x, hx, hnone⟩
    rcases List.mem_cons.mp hx with h | h
    · subst h
      simp [keyedBalances, hnone]
    · cases hb : balances a with
      | none => simp [keyedBalances, hb]
      | some b => simp [keyedBalances, hb, ih ⟨x, h, hnone⟩]

theorem pick_richest_account_none_of_missing (balances : Nat → Option Nat)
    (accounts : List Nat) (h : ∃ a ∈ accounts, balances a = none) :
    pick_richest_account balances accounts = none := by
  unfold pick_richest_account
  rw [keyedBalances_none balances accounts h]

/-- C9: fee-payer selection.  On a non-empty candidate list whose every
candidate has a balance entry, `pick_richest_account` returns a candidate
of maximal balance; with an empty list or a missing entry it panics
(modelled `none`). -/
theorem pick_richest_account_spec (balances : Nat → Option Nat)
    (accounts : List Nat) :
    (accounts ≠ [] → (∀ a ∈ accounts, (balances a).isSome) →
      ∃ p bp, pick_richest_account balances accounts = some p ∧ p ∈ accounts ∧
        balances p = some bp ∧
        ∀ a ∈ accounts, ∀ b, balances a = some b → b ≤ bp) ∧
    ((accounts = [] ∨ ∃ a ∈ accounts, balances a = none) →
      pick_richest_account balances accounts = none) := by
  constructor
  · intro hne hall
    obtain ⟨keyed, hk, hmap, hbal⟩ := keyedBalances_some balances accounts hall
    have hkne : keyed ≠ [] := by
      intro h
      rw [h] at hmap
      exact hne hmap.symm
    obtain ⟨m, hm, hmem, hmax⟩ := maxByKeyLast_spec keyed hkne
    refine ⟨m.1, m.2, ?_, ?_, hbal m hmem, ?_⟩
    · unfold pick_richest_account
      rw [hk]
      show (maxByKeyLast keyed).map (fun p => p.1) = some m.1
      rw [hm]
      rfl
    · rw [← hmap]
      exact List.mem_map_of_mem Prod.fst hmem
    · intro a ha b hab
      rw [← hmap] at ha
      obtain ⟨p, hp, hpa⟩ := List.mem_map.mp ha
      have hpb : balances p.1 = some p.2 := hbal p hp
      rw [hpa, hab] at hpb
      rw [Option.some_inj.mp hpb]
      exact hmax p hp
  · intro h
    rcases h with h | h
    · subst h
      rfl
    · exact pick_richest_account_none_of_missing balances accounts h

/-- Balance map used by the C9 witness: candidate 1 holds 10 lamports,
candidate 2 holds 5. -/
def balancesW : Nat → Option Nat :=
  fun a => if a = 1 then some 10 else if a = 2 then some 5 else none

/-- Witness for C9: over candidates `[1, 2]` a maximal candidate exists and
is returned, and the empty candidate list fails. -/
theorem pick_richest_account_spec_witness :
    (∃ p bp, pick_richest_account balancesW [1, 2] = some p ∧ p ∈ [1, 2] ∧
      balancesW p = some bp ∧
      ∀ a ∈ [1, 2], ∀ b, balancesW a = some b → b ≤ bp) ∧
    pick_richest_account balancesW [] = none :=
  ⟨(pick_richest_account_spec balancesW [1, 2]).1 (by decide) (by decide),
   (pick_richest_account_spec balancesW []).2 (Or.inl rfl)⟩

/-- Embedding of `Miner::get_balances` (src/main.rs lines 334-348): the
RPC's per-address responses (`account_data`, position-aligned with the
queried `accounts`, each entry the account's lamports when the account
exists) are zipped with the addresses, entries whose account is absent are
filtered out, and the survivors map to `(pubkey, lamports)` pairs (the
`unwrap` is safe after the `is_some` filter and is modelled by `getD`). -/
def get_balances (account_data : List (Option Nat)) (accounts : List Nat) :
    List (Nat × Nat) :=
  ((account_data.zip accounts).filter (fun p => p.1.isSome)).map
    (fun p => (p.2, p.1.getD 0))

/-- Lookup function of the `HashMap` collected from `get_balances`' pair
list (first matching key; key sets produced by `get_balances` from one
response carry equal values on duplicate keys, so first = last). -/
def balances_lookup (l : List (Nat × Nat)) : Nat → Option Nat :=
  fun p => (l.find? (fun q => q.1 == p)).map (fun q => q.2)

theorem get_balances_map_chain (chain : Nat → Option Nat) (accounts : List Nat) :
    get_balances (accounts.map chain) accounts =
      accounts.filterMap (fun a => (chain a).map (fun v => (a, v))) := by
  induction accounts with
  | nil => rfl
  | cons a as ih =>
    cases hc : chain a with
    | none => simpa [get_balances, hc] using ih
    | some v => simpa [get_balances, hc] using ih

/-- C10: the balance fetch keyed by existence.  When the RPC responses are
position-aligned with the queried addresses (`account_data =
accounts.map chain` for the on-chain account map `chain`), a pair
`(p, v)` is in the result exactly when `p` was queried and its account
exists with `v` lamports; an address with no account is absent (not mapped
to zero), and a subsequent `pick_richest_account` over candidates
containing such an address panics (modelled `none`). -/
theorem get_balances_spec (chain : Nat → Option Nat) (accounts : List Nat)
    (candidates : List Nat) (c : Nat) :
    (∀ p v, (p, v) ∈ get_balances (accounts.map chain) accounts ↔
      p ∈ accounts ∧ chain p = some v) ∧
    (chain c = none →
      balances_lookup (get_balances (accounts.map chain) accounts) c = none) ∧
    (chain c = none → c ∈ candidates →
      pick_richest_account
        (balances_lookup (get_balances (accounts.map chain) accounts))
        candidates = none) := by
  have hmem : ∀ p v, (p, v) ∈ get_balances (accounts.map chain) accounts ↔
      p ∈ accounts ∧ chain p = some v := by
    intro p v
    rw [get_balances_map_chain]
    rw [List.mem_filterMap]
    constructor
    · rintro ⟨a, ha, hf⟩
      rcases Option.map_eq_some'.mp hf with ⟨w, hw, hwv⟩
      rw [Prod.ext_iff] at hwv
      obtain ⟨hp, hv⟩ := hwv
      simp only at hp hv
      subst hp
      subst hv
      exact ⟨ha, hw⟩
    · rintro ⟨hp, hv⟩
      exact ⟨p, hp, by rw [hv]; rfl⟩
  have hlook : chain c = none →
      balances_lookup (get_balances (accounts.map chain) accounts) c = none := by
    intro hc
    unfold balances_lookup
    have hfind : (get_balances (accounts.map chain) accounts).find?
        (fun q => q.1 == c) = none := by
      rw [List.find?_eq_none]
      intro q hq he
      have hqm := (hmem q.1 q.2).mp (by simpa using hq)
      rw [beq_iff_eq] at he
      rw [he] at hqm
      rw [hqm.2] at hc
      exact Option.noConfusion hc
    rw [hfind]
    rfl
  refine ⟨hmem, hlook, fun hc hcand => ?_⟩
  exact pick_richest_account_none_of_missing _ candidates ⟨c, hcand, hlook hc⟩

/-- Chain state used by the C10 witness: address 1 exists with 10
lamports, every other address has no account. -/
def chainW : Nat → Option Nat := fun a => if a = 1 then some 10 else none

/-- Witness for C10: querying `[1, 2]` yields a map where 2 is absent, and
a fee-payer pick over candidates `[1, 2]` fails. -/
theorem get_balances_spec_witness :
    ((2, 7) ∈ get_balances ([1, 2].map chainW) [1, 2] ↔
      2 ∈ [1, 2] ∧ chainW 2 = some 7) ∧
    balances_lookup (get_balances ([1, 2].map chainW) [1, 2]) 2 = none ∧
    pick_richest_account (balances_lookup (get_balances ([1, 2].map chainW) [1, 2]))
      [1, 2] = none :=
  ⟨(get_balances_spec chainW [1, 2] [1, 2] 2).1 2 7,
   (get_balances_spec chainW [1, 2] [1, 2] 2).2.1 rfl,
   (get_balances_spec chainW [1, 2] [1, 2] 2).2.2 rfl (by decide)⟩

/-! ## Bundle construction (C6)

Instruction-assembly loop shared by both call sites
(src/bundle_mine.rs lines 206-237 and src/bundle_mine_gpu.rs lines
400-439): the `(signer, solve-result)` pairs are split into chunks of 5
(`chunks(5)`), each chunk becomes one transaction whose instruction list
pushes one `ore::instruction::mine` per signer and, right after the
instruction of the signer equal to the batch-level tipper, one
`jito::build_bribe_ix(tipper, tip)`.  Fee-payer choice and signing wrap
the instruction lists without changing them and are modelled separately
(`pick_richest_account`). -/

/-- Instructions relevant to bundle shape: a proof-submission (`mine`)
instruction or the bribe transfer. -/
inductive MineIx where
  | mine (signer bus hash nonce : Nat)
  | bribe (tipper tip : Nat)
deriving DecidableEq, Repr

/-- Rust slice `chunks(n)`: consecutive groups of `n`, last group
possibly shorter.  (`n = 0` is unreachable at the call sites, which pass
5; the total function returns the whole list then.) -/
def chunksOf {α : Type} (n : Nat) (l : List α) : List (List α) :=
  match l with
  | [] => []
  | x :: xs =>
    if n = 0 then [x :: xs]
    else (x :: xs).take n :: chunksOf n ((x :: xs).drop n)
termination_by l.length
decreasing_by
  rename_i hn
  simp [List.length_drop]
  omega

/-- Instruction list of one transaction, from one ≤5-signer chunk of
`(signer, (hash, nonce))` pairs: `ixs.push(mine(..)); if tipper ==
signer { ixs.push(bribe) }` per pair. -/
def buildTxIxs (tipper tip bus : Nat) (chunk : List (Nat × Nat × Nat)) : List MineIx :=
  chunk.flatMap fun p =>
    MineIx.mine p.1 bus p.2.1 p.2.2 ::
      (if p.1 = tipper then [MineIx.bribe tipper tip] else [])

/-- Instruction lists of the whole bundle for one bus: one transaction per
5-chunk of the batch. -/
def buildBundleIxs (tipper tip bus : Nat) (pairs : List (Nat × Nat × Nat)) :
    List (List MineIx) :=
  (chunksOf 5 pairs).map (buildTxIxs tipper tip bus)

/-- Test for a proof-submission instruction. -/
def isMine : MineIx → Bool
  | MineIx.mine _ _ _ _ => true
  | MineIx.bribe _ _ => false

/-- Test for a bribe instruction. -/
def isBribe : MineIx → Bool
  | MineIx.mine _ _ _ _ => false
  | MineIx.bribe _ _ => true

theorem buildTxIxs_cons (tipper tip bus : Nat) (p : Nat × Nat × Nat)
    (rest : List (Nat × Nat × Nat)) :
    buildTxIxs tipper tip bus (p :: rest) =
      (MineIx.mine p.1 bus p.2.1 p.2.2 ::
        (if p.1 = tipper then [MineIx.bribe tipper tip] else [])) ++
      buildTxIxs tipper tip bus rest := by
  rw [buildTxIxs, buildTxIxs, List.flatMap_cons]

theorem chunksOf_flatten {α : Type} (n : Nat) (l : List α) :
    (chunksOf n l).flatten = l := by
  suffices H : ∀ (k : Nat) (l : List α), l.length ≤ k → (chunksOf n l).flatten = l by
    exact H l.length l (Nat.le_refl _)
  intro k
  induction k with
  | zero =>
    intro l hl
    have : l = [] := List.length_eq_zero.mp (Nat.le_zero.mp hl)
    subst this
    simp [chunksOf]
  | succ k ih =>
    intro l hl
    cases l with
    | nil => simp [chunksOf]
    | cons x xs =>
      rw [chunksOf]
      by_cases hn : n = 0
      · simp [hn]
      · rw [if_neg hn, List.flatten_cons,
          ih ((x :: xs).drop n)
            (by simp only [List.length_drop, List.length_cons] at hl ⊢; omega),
          List.take_append_drop]

theorem mem_chunksOf_length {α : Type} (n : Nat) (hn : 0 < n) (l : List α) :
    ∀ c ∈ chunksOf n l, c.length ≤ n := by
  suffices H : ∀ (k : Nat) (l : List α), l.length ≤ k →
      ∀ c ∈ chunksOf n l, c.length ≤ n by
    exact H l.length l (Nat.le_refl _)
  intro k
  induction k with
  | zero =>
    intro l hl c hc
    have : l = [] := List.length_eq_zero.mp (Nat.le_zero.mp hl)
    subst this
    exact absurd hc (by simp [chunksOf])
  | succ k ih =>
    intro l hl c hc
    cases l with
    | nil => exact absurd hc (by simp [chunksOf])
    | cons x xs =>
      rw [chunksOf, if_neg (Nat.pos_iff_ne_zero.mp hn)] at hc
      rcases List.mem_cons.mp hc with h | h
      · rw [h, List.length_take]
        exact Nat.min_le_left n _
      · exact ih ((x :: xs).drop n)
          (by simp only [List.length_drop, List.length_cons] at hl ⊢; omega) c h

theorem length_chunksOf {α : Type} (n : Nat) (hn : 0 < n) (l : List α) :
    (chunksOf n l).length = (l.length + n - 1) / n := by
  suffices H : ∀ (k : Nat) (l : List α), l.length ≤ k →
      (chunksOf n l).length = (l.length + n - 1) / n by
    exact H l.length l (Nat.le_refl _)
  intro k
  induction k with
  | zero =>
    intro l hl
    have : l = [] := List.length_eq_zero.mp (Nat.le_zero.mp hl)
    subst this
    simp only [chunksOf, List.length_nil, List.length_nil, Nat.zero_add]
    exact (Nat.div_eq_of_lt (by omega)).symm
  | succ k ih =>
    intro l hl
    cases l with
    | nil =>
      simp only [chunksOf, List.length_nil, Nat.zero_add]
      exact (Nat.div_eq_of_lt (by omega)).symm
    | cons x xs =>
      rw [chunksOf, if_neg (Nat.pos_iff_ne_zero.mp hn), List.length_cons,
        ih ((x :: xs).drop n)
          (by simp only [List.length_drop, List.length_cons] at hl ⊢; omega),
        List.length_drop, List.length_cons]
      by_cases hle : xs.length + 1 ≤ n
      · have h1 : xs.length + 1 - n = 0 := by omega
        have h2 : xs.length + 1 + n - 1 = xs.length + n := by omega
        have h3 : (xs.length + n) / n = 1 := Nat.div_eq_of_lt_le (by omega) (by omega)
        rw [h1, h2, Nat.zero_add, Nat.div_eq_of_lt (by omega), h3]
      · have h1 : xs.length + 1 - n + n - 1 = xs.length := by omega
        have h2 : xs.length + 1 + n - 1 = xs.length + n := by omega
        rw [h1, h2, Nat.add_div_right _ hn]

theorem countP_buildTxIxs_bribe (tipper tip bus : Nat)
    (chunk : List (Nat × Nat × Nat)) :
    (buildTxIxs tipper tip bus chunk).countP isBribe =
      chunk.countP (fun p => p.1 == tipper) := by
  induction chunk with
  | nil => rfl
  | cons p rest ih =>
    rw [buildTxIxs_cons, List.countP_append, ih]
    by_cases hp : p.1 = tipper <;>
      simp [List.countP_cons, hp, isBribe] <;> omega

theorem countP_buildTxIxs_mine (tipper tip bus : Nat)
    (chunk : List (Nat × Nat × Nat)) :
    (buildTxIxs tipper tip bus chunk).countP isMine = chunk.length := by
  induction chunk with
  | nil => rfl
  | cons p rest ih =>
    rw [buildTxIxs_cons, List.countP_append, ih]
    by_cases hp : p.1 = tipper <;>
      simp [List.countP_cons, hp, isMine] <;> omega

theorem buildTxIxs_placement (tipper tip bus hs nn : Nat)
    (chunk : List (Nat × Nat × Nat)) (hmem : (tipper, hs, nn) ∈ chunk) :
    ∃ l1 l2, buildTxIxs tipper tip bus chunk =
      l1 ++ MineIx.mine tipper bus hs nn :: MineIx.bribe tipper tip :: l2 := by
  induction chunk with
  | nil => simp at hmem
  | cons p rest ih =>
    rcases List.mem_cons.mp hmem with h | h
    · refine ⟨[], buildTxIxs tipper tip bus rest, ?_⟩
      rw [buildTxIxs_cons, ← h]
      simp
    · obtain ⟨l1, l2, hl⟩ := ih h
      refine ⟨(MineIx.mine p.1 bus p.2.1 p.2.2 ::
        (if p.1 = tipper then [MineIx.bribe tipper tip] else [])) ++ l1, l2, ?_⟩
      rw [buildTxIxs_cons, hl]
      simp

/-- C6: bundle shape.  For a batch of `(signer, (hash, nonce))` pairs of
size N ≤ 25 with pairwise-distinct signers, and any selected bus, the
built bundle has exactly ceil(N/5) transactions, each with at most 5
proof-submission instructions, and exactly one bribe instruction in the
whole bundle, placed immediately after the batch-level tipper's own proof
instruction. -/
theorem bundle_shape_spec (pairs : List (Nat × Nat × Nat)) (tipper tip bus : Nat)
    (hsize : pairs.length ≤ 25)
    (hnodup : (pairs.map Prod.fst).Nodup)
    (htipper : tipper ∈ pairs.map Prod.fst) :
    (buildBundleIxs tipper tip bus pairs).length = (pairs.length + 4) / 5 ∧
    (∀ tx ∈ buildBundleIxs tipper tip bus pairs, tx.countP isMine ≤ 5) ∧
    ((buildBundleIxs tipper tip bus pairs).flatten.countP isBribe = 1) ∧
    (∃ hs nn, (tipper, hs, nn) ∈ pairs ∧
      ∃ tx ∈ buildBundleIxs tipper tip bus pairs,
        ∃ l1 l2, tx = l1 ++ MineIx.mine tipper bus hs nn ::
          MineIx.bribe tipper tip :: l2) := by
  refine ⟨?_, ?_, ?_, ?_⟩
  · rw [buildBundleIxs, List.length_map]
    exact length_chunksOf 5 (by omega) pairs
  · intro tx htx
    rw [buildBundleIxs] at htx
    obtain ⟨c, hc, hctx⟩ := List.mem_map.mp htx
    rw [← hctx, countP_buildTxIxs_mine]
    exact mem_chunksOf_length 5 (by omega) pairs c hc
  · rw [buildBundleIxs, List.countP_flatten, List.map_map]
    have hcomp : (List.countP isBribe ∘ buildTxIxs tipper tip bus) =
        fun c => List.countP (fun p => p.1 == tipper) c := by
      funext c
      exact countP_buildTxIxs_bribe tipper tip bus c
    rw [hcomp]
    rw [show ((chunksOf 5 pairs).map
        fun c => List.countP (fun p => p.1 == tipper) c).sum =
      List.countP (fun p => p.1 == tipper) (chunksOf 5 pairs).flatten from
      (List.countP_flatten _ _).symm]
    rw [chunksOf_flatten]
    have : List.countP (fun p => p.1 == tipper) pairs =
        (pairs.map Prod.fst).count tipper := by
      rw [List.count, List.countP_map]
      rfl
    rw [this]
    exact List.count_eq_one_of_mem hnodup htipper
  · obtain ⟨p, hp, hfst⟩ := List.mem_map.mp htipper
    obtain ⟨a, rest2⟩ := p
    obtain ⟨hs, nn⟩ := rest2
    simp only at hfst
    rw [hfst] at hp
    have hflat : (tipper, hs, nn) ∈ (chunksOf 5 pairs).flatten := by
      rw [chunksOf_flatten]; exact hp
    obtain ⟨c, hc, hpc⟩ := List.mem_flatten.mp hflat
    obtain ⟨l1, l2, hl⟩ := buildTxIxs_placement tipper tip bus hs nn c hpc
    exact ⟨hs, nn, hp, buildTxIxs tipper tip bus c,
      List.mem_map_of_mem _ hc, l1, l2, hl⟩

/-- Seven-identity batch used by the C6 witness: distinct signers 1..7,
tipper 3. -/
def pairsW : List (Nat × Nat × Nat) :=
  [(1, 11, 21), (2, 12, 22), (3, 13, 23), (4, 14, 24), (5, 15, 25),
   (6, 16, 26), (7, 17, 27)]

/-- Witness for C6 at a 7-identity batch: 2 transactions, ≤5 mine
instructions each, exactly one bribe, placed after the tipper's mine
instruction. -/
theorem bundle_shape_spec_witness :
    (buildBundleIxs 3 99 0 pairsW).length = (pairsW.length + 4) / 5 ∧
    (∀ tx ∈ buildBundleIxs 3 99 0 pairsW, tx.countP isMine ≤ 5) ∧
    ((buildBundleIxs 3 99 0 pairsW).flatten.countP isBribe = 1) ∧
    (∃ hs nn, (3, hs, nn) ∈ pairsW ∧
      ∃ tx ∈ buildBundleIxs 3 99 0 pairsW,
        ∃ l1 l2, tx = l1 ++ MineIx.mine 3 0 hs nn ::
          MineIx.bribe 3 99 :: l2) :=
  bundle_shape_spec pairsW 3 99 0 (by decide) (by decide) (by decide)

/-! ## Confirmation watcher (C7) -/

/-- `SLOT_EXPIRATION` from src/constant.rs line 6. -/
def SLOT_EXPIRATION : Nat := 151 + 5

/-- Mutable state of the polling loop (src/bundle_mine.rs lines 293-294,
src/bundle_mine_gpu.rs lines 286-287): the latest observed slot and the
landed signatures found so far. -/
structure WatchState where
  latest_slot : Nat
  landed_tx : List Nat
deriving DecidableEq, Repr

/-- One iteration body of the polling loop (src/bundle_mine.rs lines
296-311, src/bundle_mine_gpu.rs lines 289-316): a failed
`get_signature_statuses` call (`none`) leaves the state unchanged (sleep
and retry); a successful one replaces `latest_slot` with the response's
slot and recomputes the landed set with `find_landed_txs`. -/
def watchStep (signatures : List Nat) (s : WatchState)
    (poll : Option (List (Option TransactionStatus) × Nat)) : WatchState :=
  match poll with
  | none => s
  | some (statuses, slot) => ⟨slot, find_landed_txs signatures statuses⟩

/-- Negated guard of `while landed_tx.is_empty() && latest_slot <
send_at_slot + SLOT_EXPIRATION`: `true` exactly on the terminal states —
Landed (`landed_tx` non-empty) or Dropped (deadline slot reached with
nothing landed). -/
def watchDone (send_at_slot : Nat) (s : WatchState) : Bool :=
  !(s.landed_tx.isEmpty && decide (s.latest_slot < send_at_slot + SLOT_EXPIRATION))

/-- Watcher state after `k` polls, the polls being an oracle sequence of
query results; the loop starts at `latest_slot = send_at_slot` with an
empty landed set. -/
def watchStateAt (signatures : List Nat) (send_at_slot : Nat)
    (polls : Nat → Option (List (Option TransactionStatus) × Nat)) :
    Nat → WatchState
  | 0 => ⟨send_at_slot, []⟩
  | k + 1 =>
    watchStep signatures (watchStateAt signatures send_at_slot polls k) (polls k)

/-- C7: confirmation termination.  If status queries keep eventually
succeeding and the reported slots grow without bound, the watcher reaches
a terminal state (`watchDone`, i.e. Landed or Dropped); moreover it is
terminal no later than the guard check right after any successful poll
whose slot has reached `send_at_slot + SLOT_EXPIRATION` — covering both
the lands-immediately case (the landed set becomes non-empty earlier) and
the never-lands case (the deadline disjunct fires). -/
theorem watch_termination_spec (signatures : List Nat) (send_at_slot : Nat)
    (polls : Nat → Option (List (Option TransactionStatus) × Nat))
    (hsuccess : ∀ k, ∃ j, k ≤ j ∧ polls j ≠ none)
    (hgrow : ∀ m, ∃ j sts slot, polls j = some (sts, slot) ∧ m ≤ slot) :
    (∃ k, watchDone send_at_slot (watchStateAt signatures send_at_slot polls k) = true) ∧
    (∀ k0 sts slot, polls k0 = some (sts, slot) →
      send_at_slot + SLOT_EXPIRATION ≤ slot →
      watchDone send_at_slot
        (watchStateAt signatures send_at_slot polls (k0 + 1)) = true) := by
  have hterm : ∀ k0 sts slot, polls k0 = some (sts, slot) →
      send_at_slot + SLOT_EXPIRATION ≤ slot →
      watchDone send_at_slot
        (watchStateAt signatures send_at_slot polls (k0 + 1)) = true := by
    intro k0 sts slot hpoll hslot
    have hstate : watchStateAt signatures send_at_slot polls (k0 + 1) =
        ⟨slot, find_landed_txs signatures sts⟩ := by
      rw [watchStateAt, hpoll, watchStep]
    rw [hstate, watchDone]
    simp
    exact Or.inr hslot
  refine ⟨?_, hterm⟩
  obtain ⟨j, sts, slot, hpoll, hslot⟩ := hgrow (send_at_slot + SLOT_EXPIRATION)
  exact ⟨j + 1, hterm j sts slot hpoll hslot⟩

/-- Witness for C7: with polls that always succeed and report slot `k` at
poll `k`, the watcher from slot 0 is terminal right after poll 156
(`SLOT_EXPIRATION` = 156), the never-lands synthetic case. -/
theorem watch_termination_spec_witness :
    watchDone 0 (watchStateAt [] 0 (fun k => some ([], k)) 157) = true :=
  (watch_termination_spec [] 0 (fun k => some ([], k))
    (fun k => ⟨k, Nat.le_refl k, by simp⟩)
    (fun m => ⟨m, [], m, rfl, Nat.le_refl m⟩)).2 156 [] 156 rfl (by decide)

/-! ## Epoch-rollover guard (C8) -/

/-- `ore::EPOCH_DURATION` (external ore crate): one epoch lasts 60
seconds. -/
def EPOCH_DURATION : Int := 60

/-- Rust `as u64` cast of an `i64` value. -/
def i64_as_u64 (i : Int) : Nat := (i % 2 ^ 64).toNat

/-- `treasury.last_reset_at.saturating_add(ore::EPOCH_DURATION)`
(src/bundle_mine.rs line 135, src/bundle_mine_gpu.rs line 183): `i64`
saturating addition. -/
def reset_threshold (last_reset_at : Int) : Int :=
  min (max (last_reset_at + EPOCH_DURATION) (-(2 ^ 63))) (2 ^ 63 - 1)

/-- Embedding of `Miner::get_time_to_next_epoch` (src/main.rs lines
256-262), in whole seconds: before the reset threshold the remainder is
`rt - unix_timestamp`, otherwise the (possibly wrapped, via `as u64`)
value `last_reset_at + EPOCH_DURATION - unix_timestamp`. -/
def get_time_to_next_epoch (last_reset_at unix_timestamp rt : Int) : Nat :=
  if unix_timestamp < rt then i64_as_u64 (rt - unix_timestamp)
  else i64_as_u64 (last_reset_at + EPOCH_DURATION - unix_timestamp)

/-- Outcome of one fixed-worker cycle after the solve step
(src/bundle_mine.rs lines 150-169 and onward). -/
inductive CpuCycleOutcome where
  | abortEpochWait (wait : Nat)
  | noBusWait (wait : Nat)
  | submitted (bundles : List (List (List MineIx)))
deriving DecidableEq, Repr

/-- Control flow of `bundle_mine_worker` after mining
(src/bundle_mine.rs lines 150-244): if the solve took longer than the
time to the next epoch, warn and `wait_continue!(time_to_next_epoch)` —
nothing below runs; else if no bus has capacity, wait the same duration;
else build one bundle per taken bus (up to `max_buses`) and submit them. -/
def cpu_cycle_post_solve (mining_duration time_to_next_epoch : Nat)
    (available_bus : List Bus) (max_buses tipper tip : Nat)
    (pairs : List (Nat × Nat × Nat)) : CpuCycleOutcome :=
  if time_to_next_epoch < mining_duration then
    CpuCycleOutcome.abortEpochWait time_to_next_epoch
  else if available_bus.isEmpty then
    CpuCycleOutcome.noBusWait time_to_next_epoch
  else
    CpuCycleOutcome.submitted
      ((available_bus.take max_buses).map fun bus =>
        buildBundleIxs tipper tip bus.id pairs)

/-- Bundles a cycle outcome submits: none on either wait path. -/
def cpu_submitted : CpuCycleOutcome → List (List (List MineIx))
  | CpuCycleOutcome.abortEpochWait _ => []
  | CpuCycleOutcome.noBusWait _ => []
  | CpuCycleOutcome.submitted bs => bs

/-- Outcome of one pooled-mode pipeline pass after the solve step
(`mine_with_accounts`, src/bundle_mine_gpu.rs lines 195-244): either
`wait_return!(wait, Some(batch))` — the batch goes back to the caller for
an in-loop retry and nothing is submitted — or a `SendBundleTask` is
spawned with the batch and `None` is returned. -/
inductive GpuCycleOutcome where
  | retryAfterWait (wait : Nat) (batch : List Nat)
  | spawnedSubmit (batch : List Nat)
deriving DecidableEq, Repr

/-- Control flow of `mine_with_accounts` after mining
(src/bundle_mine_gpu.rs lines 195-244): the epoch check first, then the
bus-capacity check, then the blockhash fetch (`none` = RPC failure), and
only past all three the submit task is spawned. -/
def gpu_cycle_post_solve (mining_duration time_to_next_epoch : Nat)
    (batch : List Nat) (available_bus : List Bus) (blockhash : Option Nat) :
    GpuCycleOutcome :=
  if time_to_next_epoch < mining_duration then
    GpuCycleOutcome.retryAfterWait time_to_next_epoch batch
  else if available_bus.isEmpty then
    GpuCycleOutcome.retryAfterWait time_to_next_epoch batch
  else
    match blockhash with
    | none => GpuCycleOutcome.retryAfterWait time_to_next_epoch batch
    | some _ => GpuCycleOutcome.spawnedSubmit batch

/-- Whether a pooled-mode pass hands anything to the submit path. -/
def gpu_submits : GpuCycleOutcome → Bool
  | GpuCycleOutcome.retryAfterWait _ _ => false
  | GpuCycleOutcome.spawnedSubmit _ => true

/-- C8: epoch-rollover guard.  In both modes, when the solve ran longer
than the time remaining to the epoch rollover
(`get_time_to_next_epoch` of the fetched treasury/clock), the cycle
aborts before any bundle is built or submitted, waits exactly the
remaining time, and retries (fixed-worker: `continue`; pooled: the batch
is handed back for retry). -/
theorem epoch_guard_spec (mining_duration : Nat) (last_reset_at unix_timestamp : Int)
    (available_bus : List Bus) (max_buses tipper tip : Nat)
    (pairs : List (Nat × Nat × Nat)) (batch : List Nat) (blockhash : Option Nat)
    (hlate : get_time_to_next_epoch last_reset_at unix_timestamp
      (reset_threshold last_reset_at) < mining_duration) :
    (cpu_cycle_post_solve mining_duration
        (get_time_to_next_epoch last_reset_at unix_timestamp
          (reset_threshold last_reset_at))
        available_bus max_buses tipper tip pairs =
      CpuCycleOutcome.abortEpochWait
        (get_time_to_next_epoch last_reset_at unix_timestamp
          (reset_threshold last_reset_at))) ∧
    (cpu_submitted (cpu_cycle_post_solve mining_duration
        (get_time_to_next_epoch last_reset_at unix_timestamp
          (reset_threshold last_reset_at))
        available_bus max_buses tipper tip pairs) = []) ∧
    (gpu_cycle_post_solve mining_duration
        (get_time_to_next_epoch last_reset_at unix_timestamp
          (reset_threshold last_reset_at))
        batch available_bus blockhash =
      GpuCycleOutcome.retryAfterWait
        (get_time_to_next_epoch last_reset_at unix_timestamp
          (reset_threshold last_reset_at)) batch) ∧
    (gpu_submits (gpu_cycle_post_solve mining_duration
        (get_time_to_next_epoch last_reset_at unix_timestamp
          (reset_threshold last_reset_at))
        batch available_bus blockhash) = false) := by
  refine ⟨?_, ?_, ?_, ?_⟩ <;>
    simp [cpu_cycle_post_solve, gpu_cycle_post_solve, cpu_submitted, gpu_submits, hlate]

/-- Witness for C8: with the epoch fresh at timestamp 0 (60 s remaining)
and a 61 s solve, both modes abort with a 60 s wait and submit nothing. -/
theorem epoch_guard_spec_witness :
    (cpu_cycle_post_solve 61
        (get_time_to_next_epoch 0 0 (reset_threshold 0)) [Bus.mk 0 5] 2 1 9 [(1, 11, 21)] =
      CpuCycleOutcome.abortEpochWait (get_time_to_next_epoch 0 0 (reset_threshold 0))) ∧
    (cpu_submitted (cpu_cycle_post_solve 61
        (get_time_to_next_epoch 0 0 (reset_threshold 0)) [Bus.mk 0 5] 2 1 9 [(1, 11, 21)]) = []) ∧
    (gpu_cycle_post_solve 61
        (get_time_to_next_epoch 0 0 (reset_threshold 0)) [1, 2] [Bus.mk 0 5] (some 3) =
      GpuCycleOutcome.retryAfterWait (get_time_to_next_epoch 0 0 (reset_threshold 0)) [1, 2]) ∧
    (gpu_submits (gpu_cycle_post_solve 61
        (get_time_to_next_epoch 0 0 (reset_threshold 0)) [1, 2] [Bus.mk 0 5] (some 3)) = false) :=
  epoch_guard_spec 61 0 0 [Bus.mk 0 5] 2 1 9 [(1, 11, 21)] [1, 2] (some 3) (by decide)

/-! ## Pooled-batch pool conservation (C3)

Ownership model of pooled mode (src/bundle_mine_gpu.rs).  An
`Accounts` batch (identified by its `id`) is a Rust value moved between
three owners: the bounded channel (`ch_accounts`, capacity = batch
count, lines 74 and 97-99), the active pipeline (the scheduler's local
`batch` vector plus a spawned `SendBundleTask`, lines 109-137 and
227-244), and a background watcher (`watch_signatures`, spawned at lines
460-469).  Each code site is one transition:

* `drain k` — the `try_recv` loop takes `0 < k ≤ 4` batches off the
  queue front (lines 111-116; the loop body only runs when a batch was
  actually received);
* `retry` — `mine_with_accounts` returned `Some(batch)`: the pipeline
  keeps its batches (lines 128-137);
* `spawnWatch b` — `SendBundleTask::work` hands batch `b` to its
  spawned `watch_signatures` task (lines 460-469);
* `release b` — the watcher reached a terminal state and runs
  `Accounts::release` (lines 257-269, called once at line 343, after the
  terminal classification): the batch is pushed back onto the queue;
* `panicDrop b` — the spawned `SendBundleTask::work` unwraps a missing
  balance entry (`signer_balances.get(pubkey).unwrap()` inside
  `pick_richest_account` at line 394 and in the per-chunk fee-payer pick
  at line 407 — reachable, since `get_balances` omits addresses whose
  account does not exist) and panics, dropping every `Accounts` value the
  task still holds without release: the batch leaves all three owners
  permanently.
-/

/-- Who currently holds which batch ids. -/
structure PoolState where
  queue : List Nat
  pipeline : List Nat
  watchers : List Nat
deriving DecidableEq, Repr

/-- One ownership transition of the pooled pipeline (see section
comment for the code sites). -/
inductive PoolStep where
  | drain (k : Nat)
  | retry
  | spawnWatch (b : Nat)
  | release (b : Nat)
  | panicDrop (b : Nat)
deriving DecidableEq, Repr

/-- Test for the batch-losing panic transition. -/
def isPanicDrop : PoolStep → Bool
  | PoolStep.panicDrop _ => true
  | _ => false

/-- Guarded small-step semantics of the ownership transitions; a `none`
result is a transition whose guard the code cannot fire (e.g. releasing a
batch no watcher holds). -/
def poolStep (s : PoolState) : PoolStep → Option PoolState
  | PoolStep.drain k =>
    if 0 < k ∧ k ≤ 4 ∧ k ≤ s.queue.length then
      some ⟨s.queue.drop k, s.pipeline ++ s.queue.take k, s.watchers⟩
    else none
  | PoolStep.retry => some s
  | PoolStep.spawnWatch b =>
    if b ∈ s.pipeline then
      some ⟨s.queue, s.pipeline.erase b, s.watchers ++ [b]⟩
    else none
  | PoolStep.release b =>
    if b ∈ s.watchers then
      some ⟨s.queue ++ [b], s.pipeline, s.watchers.erase b⟩
    else none
  | PoolStep.panicDrop b =>
    if b ∈ s.pipeline then
      some ⟨s.queue, s.pipeline.erase b, s.watchers⟩
    else none

/-- Run of a transition trace. -/
def poolRun (s : PoolState) : List PoolStep → Option PoolState
  | [] => some s
  | a :: rest =>
    match poolStep s a with
    | none => none
    | some s2 => poolRun s2 rest

/-- Initial state: `bundle_mine_gpu` sends every batch into the channel
before the scheduler loop starts (lines 97-99). -/
def initPool (ids : List Nat) : PoolState := ⟨ids, [], []⟩

/-- All batch ids currently held, over all three owners. -/
def holdings (s : PoolState) : List Nat := s.queue ++ s.pipeline ++ s.watchers

theorem count_erase_eq (b x : Nat) (l : List Nat) :
    List.count x (l.erase b) =
      if b = x then List.count x l - 1 else List.count x l := by
  by_cases hx : b = x
  · subst hx
    rw [List.count_erase]
    simp
  · rw [List.count_erase]
    simp [beq_eq_false_iff_ne.mpr hx, hx]

theorem count_singleton_eq (b x : Nat) :
    List.count x [b] = if b = x then 1 else 0 := by
  by_cases hx : b = x
  · subst hx
    simp
  · simp [List.count_cons, beq_eq_false_iff_ne.mpr (Ne.symm hx), hx]

theorem poolStep_perm (s s2 : PoolState) (a : PoolStep)
    (hnp : isPanicDrop a = false) (h : poolStep s a = some s2) :
    (holdings s2).Perm (holdings s) := by
  obtain ⟨q, p, w⟩ := s
  cases a with
  | panicDrop b => simp [isPanicDrop] at hnp
  | drain k =>
    rw [poolStep] at h
    split at h
    · cases h
      rw [List.perm_iff_count]
      intro x
      show List.count x (q.drop k ++ (p ++ q.take k) ++ w) =
        List.count x (q ++ p ++ w)
      simp only [List.count_append]
      have hq := congrArg (List.count x) (List.take_append_drop k q)
      rw [List.count_append] at hq
      omega
    · exact Option.noConfusion h
  | retry =>
    rw [poolStep] at h
    cases h
    exact List.Perm.refl _
  | spawnWatch b =>
    rw [poolStep] at h
    split at h
    · rename_i hg
      cases h
      rw [List.perm_iff_count]
      intro x
      show List.count x (q ++ p.erase b ++ (w ++ [b])) =
        List.count x (q ++ p ++ w)
      simp only [List.count_append]
      rw [count_erase_eq, count_singleton_eq]
      have hcp : 0 < List.count b p := List.count_pos_iff.mpr hg
      by_cases hx : b = x
      · subst hx
        rw [if_pos rfl, if_pos rfl]
        omega
      · rw [if_neg hx, if_neg hx]
        omega
    · exact Option.noConfusion h
  | release b =>
    rw [poolStep] at h
    split at h
    · rename_i hg
      cases h
      rw [List.perm_iff_count]
      intro x
      show List.count x (q ++ [b] ++ p ++ w.erase b) =
        List.count x (q ++ p ++ w)
      simp only [List.count_append]
      rw [count_erase_eq, count_singleton_eq]
      have hcw : 0 < List.count b w := List.count_pos_iff.mpr hg
      by_cases hx : b = x
      · subst hx
        rw [if_pos rfl, if_pos rfl]
        omega
      · rw [if_neg hx, if_neg hx]
        omega
    · exact Option.noConfusion h

theorem poolStep_count_le (s s2 : PoolState) (a : PoolStep)
    (h : poolStep s a = some s2) (x : Nat) :
    List.count x (holdings s2) ≤ List.count x (holdings s) := by
  cases ha : isPanicDrop a with
  | false => exact Nat.le_of_eq ((poolStep_perm s s2 a ha h).count_eq x)
  | true =>
    cases a with
    | drain k => simp [isPanicDrop] at ha
    | retry => simp [isPanicDrop] at ha
    | spawnWatch b => simp [isPanicDrop] at ha
    | release b => simp [isPanicDrop] at ha
    | panicDrop b =>
      obtain ⟨q, p, w⟩ := s
      rw [poolStep] at h
      split at h
      · cases h
        show List.count x (q ++ p.erase b ++ w) ≤ List.count x (q ++ p ++ w)
        simp only [List.count_append]
        rw [count_erase_eq]
        by_cases hx : b = x
        · rw [if_pos hx]
          omega
        · rw [if_neg hx]
      · exact Option.noConfusion h

theorem poolRun_count_le (trace : List PoolStep) (s s2 : PoolState)
    (h : poolRun s trace = some s2) (x : Nat) :
    List.count x (holdings s2) ≤ List.count x (holdings s) := by
  induction trace generalizing s with
  | nil =>
    rw [poolRun] at h
    cases h
    exact Nat.le_refl _
  | cons a rest ih =>
    rw [poolRun] at h
    cases hstep : poolStep s a with
    | none => rw [hstep] at h; exact Option.noConfusion h
    | some s1 =>
      rw [hstep] at h
      exact Nat.le_trans (ih s1 h) (poolStep_count_le s s1 a hstep x)

theorem poolRun_perm (trace : List PoolStep) (s s2 : PoolState)
    (hnp : ∀ a ∈ trace, isPanicDrop a = false)
    (h : poolRun s trace = some s2) : (holdings s2).Perm (holdings s) := by
  induction trace generalizing s with
  | nil =>
    rw [poolRun] at h
    cases h
    exact List.Perm.refl _
  | cons a rest ih =>
    rw [poolRun] at h
    cases hstep : poolStep s a with
    | none => rw [hstep] at h; exact Option.noConfusion h
    | some s1 =>
      rw [hstep] at h
      exact ((ih s1 (fun b hb => hnp b (List.mem_cons_of_mem a hb)) h).trans
        (poolStep_perm s s1 a (hnp a (List.mem_cons_self a rest)) hstep))

/-- Counter-example to C3 as stated: a single batch is drained and then
lost when the spawned `SendBundleTask::work` panics on a missing balance
entry (bundle_mine_gpu.rs lines 394/407) — the batch is dropped without
release, is held by no owner afterwards, and is never returned to the
queue, refuting "returned exactly once / never permanently lost / always
held by exactly one owner". -/
theorem pool_conservation_counterexample :
    poolRun (initPool [0]) [PoolStep.drain 1, PoolStep.panicDrop 0] =
      some (PoolState.mk [] [] []) ∧
    ¬ (holdings (PoolState.mk [] [] [])).Perm [0] :=
  ⟨by decide, by decide⟩

/-- C3 (amended): pool conservation up to the missing-balance panic.
Along every transition trace from the initial all-in-queue state over
distinct batch ids: the held ids form a sub-multiset of the original ids
(batches are never duplicated, and can only disappear through the
panic-drop path), each id is held by at most one of queue / pipeline /
watcher, the queue never exceeds the channel capacity (the batch count,
so `Accounts::release`'s send cannot fail), and a `release` is enabled
only for a batch some watcher holds and moves exactly that batch to the
queue, leaving no watcher holding it.  On every trace free of panic
drops, conservation is exact: the held ids are exactly the original ids
and each id is held by exactly one owner — each drained batch is
returned exactly once per pipeline pass. -/
theorem pool_conservation_spec (ids : List Nat) (trace : List PoolStep)
    (s2 : PoolState) (hnodup : ids.Nodup)
    (hrun : poolRun (initPool ids) trace = some s2) :
    (holdings s2).Subperm ids ∧
    (holdings s2).Nodup ∧
    (∀ b : Nat,
      ¬(b ∈ s2.queue ∧ b ∈ s2.pipeline) ∧
      ¬(b ∈ s2.queue ∧ b ∈ s2.watchers) ∧
      ¬(b ∈ s2.pipeline ∧ b ∈ s2.watchers)) ∧
    s2.queue.length ≤ ids.length ∧
    (∀ b s3, poolStep s2 (PoolStep.release b) = some s3 →
      b ∈ s2.watchers ∧ b ∉ s3.watchers ∧ b ∈ s3.queue) ∧
    ((∀ a ∈ trace, isPanicDrop a = false) →
      (holdings s2).Perm ids ∧
      ∀ b ∈ ids,
        (b ∈ s2.queue ∧ b ∉ s2.pipeline ∧ b ∉ s2.watchers) ∨
        (b ∉ s2.queue ∧ b ∈ s2.pipeline ∧ b ∉ s2.watchers) ∨
        (b ∉ s2.queue ∧ b ∉ s2.pipeline ∧ b ∈ s2.watchers)) := by
  have hcnt : ∀ x, List.count x (holdings s2) ≤ List.count x ids := by
    intro x
    have h := poolRun_count_le trace (initPool ids) s2 hrun x
    simpa [holdings, initPool] using h
  have hle1 : ∀ x, List.count x ids ≤ 1 := List.nodup_iff_count_le_one.mp hnodup
  have hsub : (holdings s2).Subperm ids :=
    List.subperm_ext_iff.mpr (fun x _ => hcnt x)
  have hnd : (holdings s2).Nodup :=
    List.nodup_iff_count_le_one.mpr (fun x => Nat.le_trans (hcnt x) (hle1 x))
  refine ⟨hsub, hnd, ?_, ?_, ?_, ?_⟩
  · intro b
    have hb : s2.queue.count b + s2.pipeline.count b + s2.watchers.count b ≤ 1 := by
      have h := Nat.le_trans (hcnt b) (hle1 b)
      simp only [holdings, List.count_append] at h
      omega
    refine ⟨fun hm => ?_, fun hm => ?_, fun hm => ?_⟩
    · have h1 := List.count_pos_iff.mpr hm.1
      have h2 := List.count_pos_iff.mpr hm.2
      omega
    · have h1 := List.count_pos_iff.mpr hm.1
      have h2 := List.count_pos_iff.mpr hm.2
      omega
    · have h1 := List.count_pos_iff.mpr hm.1
      have h2 := List.count_pos_iff.mpr hm.2
      omega
  · have hlen := hsub.length_le
    simp only [holdings, List.length_append] at hlen
    omega
  · intro b s3 h
    rw [poolStep] at h
    by_cases hg : b ∈ s2.watchers
    · rw [if_pos hg] at h
      cases h
      have hw : s2.watchers.Nodup := List.Nodup.of_append_right hnd
      exact ⟨hg, hw.not_mem_erase, by simp⟩
    · rw [if_neg hg] at h
      exact Option.noConfusion h
  · intro hnp
    have hperm : (holdings s2).Perm ids := by
      have h := poolRun_perm trace (initPool ids) s2 hnp hrun
      simpa [holdings, initPool] using h
    refine ⟨hperm, ?_⟩
    intro b hb
    have hcount : s2.queue.count b + s2.pipeline.count b + s2.watchers.count b = 1 := by
      have h1 := hperm.count_eq b
      rw [List.count_eq_one_of_mem hnodup hb] at h1
      simp only [holdings, List.count_append] at h1
      omega
    by_cases hq : b ∈ s2.queue
    · have h1 : 0 < s2.queue.count b := List.count_pos_iff.mpr hq
      refine Or.inl ⟨hq, fun hm => ?_, fun hm => ?_⟩
      · have := List.count_pos_iff.mpr hm; omega
      · have := List.count_pos_iff.mpr hm; omega
    · by_cases hp : b ∈ s2.pipeline
      · have h1 : 0 < s2.pipeline.count b := List.count_pos_iff.mpr hp
        refine Or.inr (Or.inl ⟨hq, hp, fun hm => ?_⟩)
        have := List.count_pos_iff.mpr hm; omega
      · refine Or.inr (Or.inr ⟨hq, hp, ?_⟩)
        have h0 : s2.queue.count b = 0 := List.count_eq_zero.mpr hq
        have h2 : s2.pipeline.count b = 0 := List.count_eq_zero.mpr hp
        have : 0 < s2.watchers.count b := by omega
        exact List.count_pos_iff.mp this

/-- Witness for C3: three batches, a panic-free trace draining two,
watching batch 0 and releasing it; the sub-multiset bound, uniqueness,
exact conservation and the queue bound all hold in the final state. -/
theorem pool_conservation_spec_witness :
    (holdings ⟨[2, 0], [1], []⟩).Subperm [0, 1, 2] ∧
    (holdings ⟨[2, 0], [1], []⟩).Nodup ∧
    (holdings ⟨[2, 0], [1], []⟩).Perm [0, 1, 2] ∧
    ([2, 0] : List Nat).length ≤ ([0, 1, 2] : List Nat).length :=
  ⟨(pool_conservation_spec [0, 1, 2]
      [PoolStep.drain 2, PoolStep.spawnWatch 0, PoolStep.release 0]
      ⟨[2, 0], [1], []⟩ (by decide) (by decide)).1,
   (pool_conservation_spec [0, 1, 2]
      [PoolStep.drain 2, PoolStep.spawnWatch 0, PoolStep.release 0]
      ⟨[2, 0], [1], []⟩ (by decide) (by decide)).2.1,
   ((pool_conservation_spec [0, 1, 2]
      [PoolStep.drain 2, PoolStep.spawnWatch 0, PoolStep.release 0]
      ⟨[2, 0], [1], []⟩ (by decide) (by decide)).2.2.2.2.2 (by decide)).1,
   (pool_conservation_spec [0, 1, 2]
      [PoolStep.drain 2, PoolStep.spawnWatch 0, PoolStep.release 0]
      ⟨[2, 0], [1], []⟩ (by decide) (by decide)).2.2.2.1⟩

/-! ## Claim theorems C4, C5 -/

/-- Counter-example to C4 as stated: at the reachable snapshot
`p50 = u64::MAX` (the f64→`u64` cast in `JitoTips::p50` saturates) the
source's `u64` sum `p50 + 1` wraps to 0, so both call sites yield
`min cap floor` — not the claim's `min cap (max floor (p50 + 1))`, which
would be `cap` whenever `floor < cap`. -/
theorem adaptive_tip_wrap_counterexample :
    adaptive_tip_cpu 1000 40000 (2 ^ 64 - 1) = min 40000 30000 ∧
    adaptive_tip_cpu 1000 40000 (2 ^ 64 - 1) ≠
      min 40000 (max 30000 ((2 ^ 64 - 1) + 1)) ∧
    adaptive_tip_gpu 1000 60000 (2 ^ 64 - 1) = min 60000 50000 ∧
    adaptive_tip_gpu 1000 60000 (2 ^ 64 - 1) ≠
      min 60000 (max 50000 ((2 ^ 64 - 1) + 1)) := by
  refine ⟨by decide, by decide, by decide, by decide⟩

/-- C4 (amended): adaptive tip computation with `u64` semantics.  For
every base, cap and snapshot `p50`: with `cap = 0` both call sites use
`base` unchanged; with `cap > 0` and `p50 = 0` both fall back to `base`;
otherwise the tip is `min cap (max floor ((p50 + 1) mod 2^64))` with the
call site's floor constant (30000 at the fixed-worker site, 50000 at the
pooled-batch site) — which coincides with the spec's
`min cap (max floor (p50 + 1))` whenever the `u64` sum `p50 + 1` does not
wrap, i.e. for every `p50 < u64::MAX`. -/
theorem adaptive_tip_spec (base cap p50 : Nat) :
    (cap = 0 → adaptive_tip_cpu base cap p50 = base ∧ adaptive_tip_gpu base cap p50 = base) ∧
    (0 < cap → p50 = 0 → adaptive_tip_cpu base cap p50 = base ∧
      adaptive_tip_gpu base cap p50 = base) ∧
    (0 < cap → 0 < p50 →
      adaptive_tip_cpu base cap p50 = min cap (max 30000 ((p50 + 1) % 2 ^ 64)) ∧
      adaptive_tip_gpu base cap p50 = min cap (max 50000 ((p50 + 1) % 2 ^ 64))) ∧
    (0 < cap → 0 < p50 → p50 + 1 < 2 ^ 64 →
      adaptive_tip_cpu base cap p50 = min cap (max 30000 (p50 + 1)) ∧
      adaptive_tip_gpu base cap p50 = min cap (max 50000 (p50 + 1))) := by
  have hgen : 0 < cap → 0 < p50 →
      adaptive_tip_cpu base cap p50 = min cap (max 30000 ((p50 + 1) % 2 ^ 64)) ∧
      adaptive_tip_gpu base cap p50 = min cap (max 50000 ((p50 + 1) % 2 ^ 64)) := by
    intro hc hp
    constructor
    · simp [adaptive_tip_cpu, hc, hp]
    · simp [adaptive_tip_gpu, hc, Nat.pos_iff_ne_zero.mp hp, Nat.min_comm, Nat.max_comm]
  refine ⟨fun hc => ?_, fun hc hp => ?_, hgen, fun hc hp hlt => ?_⟩
  · subst hc; simp [adaptive_tip_cpu, adaptive_tip_gpu]
  · subst hp; simp [adaptive_tip_cpu, adaptive_tip_gpu, hc]
  · rw [← Nat.mod_eq_of_lt hlt]
    exact hgen hc hp

/-- Witness for C4 at the spec's test vector: base 1000, cap 40000,
p50 20000 (no wrap) gives `min 40000 (max 30000 20001) = 30000` at the
fixed-worker site and `min 40000 (max 50000 20001) = 40000` at the pooled
site. -/
theorem adaptive_tip_spec_witness :
    adaptive_tip_cpu 1000 40000 20000 = min 40000 (max 30000 20001) ∧
    adaptive_tip_gpu 1000 40000 20000 = min 40000 (max 50000 20001) :=
  ⟨((adaptive_tip_spec 1000 40000 20000).2.2.2 (by decide) (by decide) (by decide)).1,
   ((adaptive_tip_spec 1000 40000 20000).2.2.2 (by decide) (by decide) (by decide)).2⟩

/-- C5: capacity selection.  `find_buses` returns exactly the buses whose
`rewards` is at least the required amount (as a multiset: a permutation of
the filtered input, so nothing is added, dropped or modified), sorted
descending by `rewards`; on the spec's example
`[{0,100},{1,50},{2,200}]` with required 80 it returns
`[{2,200},{0,100}]`.  An empty result is an ordinary value. -/
theorem find_buses_spec :
    (∀ (buses : List Bus) (required : Nat),
      (find_buses buses required).Perm
        (buses.filter (fun bus => decide (required ≤ bus.rewards))) ∧
      (find_buses buses required).Sorted busGE ∧
      (∀ b : Bus, b ∈ find_buses buses required ↔
        b ∈ buses.filter (fun bus => decide (required ≤ bus.rewards)))) ∧
    find_buses [⟨0, 100⟩, ⟨1, 50⟩, ⟨2, 200⟩] 80 = [⟨2, 200⟩, ⟨0, 100⟩] := by
  refine ⟨fun buses required => ⟨?_, ?_, ?_⟩, by decide⟩
  · exact List.perm_insertionSort busGE _
  · exact List.sorted_insertionSort busGE _
  · intro b
    exact (List.perm_insertionSort busGE _).mem_iff
